import Mathlib

/-!
Verification development for the o3din event-ingestion and projection-store
core.  JavaScript strings are modelled as lists of characters (`Str`), JS
objects whose key order matters are modelled as insertion-ordered association
lists, and the handlers of `src/src/lib/core/socket.js` together with the
durable-config layer of the configuration module are embedded as pure Lean
functions over these models.
-/

set_option synthInstance.maxHeartbeats 1000000

namespace O3din

/-- JavaScript strings are modelled as lists of characters. -/
abbrev Str := List Char

/-! ## Identity normalizer (`decodeJid`, socket.js lines 46-54) -/

/-- Shallow embedding of the regex replacement step
`raw.replace(/:\d+@/, "@")` of `decodeJid` (socket.js line 48): the leftmost
occurrence of a colon followed by one or more digits followed by an at-sign
is replaced by a single at-sign; everything else is copied unchanged.  The
digit run after the colon is maximal (regex greediness) and the match needs
the at-sign right after it, so a `:<digits>` at the very end of the string is
not a match.  (The JS `const ds` binding is inlined.) -/
def devSuffixReplace : Str → Str
  | [] => []
  | c :: rest =>
    if c = ':' ∧ rest.takeWhile Char.isDigit ≠ [] ∧
        (rest.drop (rest.takeWhile Char.isDigit).length).head? = some '@' then
      '@' :: rest.drop ((rest.takeWhile Char.isDigit).length + 1)
    else
      c :: devSuffixReplace rest

/-- Shallow embedding of `decodeJid` (socket.js lines 46-54).  A JS
null/undefined or empty-string input (all falsy) is modelled as the empty
list and yields `none` (the JS function returns `raw || null`, i.e. null).
Otherwise: apply the device-suffix replacement; if the result contains `@`
return it, else if it is purely numeric (regex `^[0-9]+$`) append the default
phone-number server suffix, else return it unchanged. -/
def decodeJid (raw : Str) : Option Str :=
  if raw = [] then none
  else
    let cleaned := devSuffixReplace raw
    if '@' ∈ cleaned then some cleaned
    else if cleaned ≠ [] ∧ cleaned.all Char.isDigit then
      some (cleaned ++ "@s.whatsapp.net".toList)
    else some cleaned

/-! ## Association-list model of JS objects / Map -/

/-- JS object property read `obj[k]` (also `Map.get`): the value bound to the
key, if any. -/
def objGet {α : Type} : List (Str × α) → Str → Option α
  | [], _ => none
  | (k', v) :: rest, k => if k' = k then some v else objGet rest k

/-- JS object property write `obj[k] = v` (also `Map.set`): an existing key
keeps its position in the enumeration order and its value is replaced; a new
(non-array-index) key is appended at the end. -/
def objSet {α : Type} : List (Str × α) → Str → α → List (Str × α)
  | [], k, v => [(k, v)]
  | (k', v') :: rest, k, v =>
    if k' = k then (k, v) :: rest else (k', v') :: objSet rest k v

/-- JS `delete obj[k]` (also `Map.delete`): remove the binding for `k`. -/
def objDel {α : Type} (w : List (Str × α)) (k : Str) : List (Str × α) :=
  w.filter (fun e => e.1 ≠ k)

/-! ## The pushMessage sliding window (socket.js lines 345-538) -/

/-- The fields of an incoming message that the window-update step of
`conn.pushMessage` inspects: the message id (`message.key.id`, absent when
falsy), the self-sent flag, whether `message.message` is present, and whether
the stub type is CIPHERTEXT. -/
structure PushMsg where
  mid : Option Str
  fromMe : Bool
  hasMessage : Bool
  stubCipher : Bool
deriving DecidableEq

/-- The per-chat message-window update step of `conn.pushMessage`
(socket.js lines 508-528) for one arriving message: a non-self message with
content, a non-CIPHERTEXT stub type and a message id is written into the
chat's `messages` object under its id, and when the window then holds more
than 20 entries the oldest `length - 15` keys (in insertion order) are
deleted, leaving the most recent 15.  Other messages leave the window
unchanged.  The stored payload is the message itself (the source's
`cleanMsg` drops two sub-fields of the payload, which no claim inspects). -/
def pushMessageWindow (w : List (Str × PushMsg)) (m : PushMsg) :
    List (Str × PushMsg) :=
  match m.mid with
  | none => w
  | some mid =>
    if ¬ m.fromMe ∧ m.hasMessage ∧ ¬ m.stubCipher then
      let w1 := objSet w mid m
      if w1.length > 20 then w1.drop (w1.length - 15) else w1
    else w

/-- 25 distinct non-self messages (ids are single distinct characters),
arriving sequentially in one chat. -/
def c1Msgs : List PushMsg :=
  (List.range 25).map (fun n => { mid := some [Char.ofNat (65 + n)],
                                  fromMe := false,
                                  hasMessage := true,
                                  stubCipher := false })

/-- The chat's message window after the 25 sequential insertions of
`c1Msgs`, starting from an empty window.  (Sequential processing reads back
the previous write: spec §4.2 read-your-write of `atomicSet`/`get`.) -/
def c1Run : List (Str × PushMsg) := c1Msgs.foldl pushMessageWindow []

/-! ## Entity store (modelled from the spec) and ingestion handlers

The `MemoryStore` class of `store/core.js` is not among the sources (only
its caller `store/store.js` is).  Spec §4.2 specifies it as a keyed store
with `get` (null for misses), `atomicSet` (keyed write), `del`, and
glob-style `keys`; it is modelled as an insertion-ordered association list,
with `atomicSet` = `objSet`, `get` = `objGet`, `del` = `objDel`.  The
priority-queue enqueueing attached to each event (a side effect no claim
depends on) is omitted. -/

/-- The chat-entity fields that the modelled handlers read or write. -/
structure ChatEnt where
  id : Str
  conversationTimestamp : Option Int
  unreadCount : Option Nat
  isChats : Bool
deriving DecidableEq

/-- The message-event fields that the modelled handlers read:
`key.remoteJid`, `key.id`, `key.fromMe`, `messageTimestamp` (absent fields
are `none`; an empty string is falsy in JS and is modelled by `[]`). -/
structure MsgEnt where
  remoteJid : Option Str
  msgId : Option Str
  fromMe : Bool
  messageTimestamp : Option Int
deriving DecidableEq

/-- A value held by the memory store. -/
inductive Val where
  | chat (c : ChatEnt)
  | msg (m : MsgEnt)
  | blocklist (l : List Str)
deriving DecidableEq

/-- Modelled from the spec: the store of `store/core.js` (not in the
sources), an insertion-ordered key/value map. -/
def Store := List (Str × Val)

/-- `REDIS_PREFIX = "o3din:chat:"` (store/store.js). -/
def chatKeyPre : Str := ['o', '3', 'd', 'i', 'n', ':', 'c', 'h', 'a', 't', ':']

/-- `REDIS_MESSAGE_PREFIX = "o3din:message:"` (store/store.js). -/
def msgKeyPre : Str :=
  ['o', '3', 'd', 'i', 'n', ':', 'm', 'e', 's', 's', 'a', 'g', 'e', ':']

/-- Key of a chat entity: `REDIS_PREFIX + jid`. -/
def chatKey (jid : Str) : Str := chatKeyPre ++ jid

/-- Key of a message entity: `REDIS_MESSAGE_PREFIX + chatId + ":" + messageId`. -/
def msgKey (chatId mid : Str) : Str := msgKeyPre ++ chatId ++ ':' :: mid

/-- Key of the blocklist entity: `REDIS_BLOCKLIST_PREFIX + "list"`. -/
def blocklistKey : Str := "o3din:blocklist:list".toList

/-- Modelled from the spec: `memoryStore.keys(pattern)` of `store/core.js`
(not in the sources) for the patterns the handlers use, which are all of the
form `<prefix>*`: the stored keys that start with the prefix. -/
def storeKeysWithPre (s : Store) (p : Str) : List Str :=
  (s.map Prod.fst).filter (fun k => p.isPrefixOf k)

/-- The body of the `messages.upsert` handler (store/store.js part of
socket.js, lines 1005-1031) for one message of the event: skip when the chat
id or message id is missing/falsy or the chat is the status broadcast;
otherwise store the message under `REDIS_MESSAGE_PREFIX + chatId + ":" + id`
(no jid normalization is applied), then fetch the chat (or start a fresh
`{ id: chatId }`), set its `conversationTimestamp` to the message's
timestamp, set `isChats`, increment `unreadCount` when not `fromMe`, and
store it back under `REDIS_PREFIX + chatId`. -/
def messagesUpsertOne (s : Store) (m : MsgEnt) : Store :=
  match m.remoteJid, m.msgId with
  | some chatId, some mid =>
    if chatId = [] ∨ mid = [] ∨ chatId = "status@broadcast".toList then s
    else
      let s1 := objSet s (msgKey chatId mid) (Val.msg m)
      let c0 : ChatEnt :=
        match objGet s1 (chatKey chatId) with
        | some (Val.chat c) => c
        | _ => { id := chatId, conversationTimestamp := none,
                 unreadCount := none, isChats := false }
      let c1 : ChatEnt :=
        { c0 with conversationTimestamp := m.messageTimestamp,
                  isChats := true,
                  unreadCount := if m.fromMe then c0.unreadCount
                                 else some (c0.unreadCount.getD 0 + 1) }
      objSet s1 (chatKey chatId) (Val.chat c1)
  | _, _ => s

/-- The body of the `chats.delete` handler (socket.js lines 1249-1265) for
one deleted chat id: delete the chat entity under `REDIS_PREFIX + id` (no
jid normalization is applied), then delete every key matching
`REDIS_MESSAGE_PREFIX + id + ":*"`. -/
def chatsDeleteOne (s : Store) (id : Str) : Store :=
  let s1 := objDel s (chatKey id)
  (storeKeysWithPre s1 (msgKeyPre ++ id ++ [':'])).foldl objDel s1

/-- `conn.getBlocklist` (socket.js lines 840-843): the stored blocklist, or
`[]` when the key is absent. -/
def getBlocklistL (s : Store) : List Str :=
  match objGet s blocklistKey with
  | some (Val.blocklist l) => l
  | _ => []

/-- The two `blocklist.update` event types. -/
inductive BlUpdateType where
  | add
  | remove
deriving DecidableEq

/-- The `add` loop of the `blocklist.update` handler (socket.js lines
1540-1546): push each jid that is not already included. -/
def blAddAll (existing jids : List Str) : List Str :=
  jids.foldl (fun acc j => if j ∈ acc then acc else acc ++ [j]) existing

/-- The body of the `blocklist.update` handler (socket.js lines 1534-1558):
read the existing blocklist; on `add`, union the event's jids into it
(skipping ones already included); on `remove`, filter the event's jids out;
store the result back as a single write. -/
def blocklistUpdate (s : Store) (ty : BlUpdateType) (jids : List Str) : Store :=
  let existing := getBlocklistL s
  match ty with
  | .add => objSet s blocklistKey (Val.blocklist (blAddAll existing jids))
  | .remove =>
      objSet s blocklistKey
        (Val.blocklist (existing.filter (fun j => j ∉ jids)))

/-- The `conversationTimestamp` of the chat entity stored for `cid`
(`none` when the chat is absent). -/
def chatTs (s : Store) (cid : Str) : Option Int :=
  match objGet s (chatKey cid) with
  | some (Val.chat c) => c.conversationTimestamp
  | _ => none

/-- The unread counter of the chat entity stored for `cid`, with JS's
`chat.unreadCount || 0` reading of an absent field. -/
def chatUnread (s : Store) (cid : Str) : Nat :=
  match objGet s (chatKey cid) with
  | some (Val.chat c) => c.unreadCount.getD 0
  | _ => 0

/-- An unnormalized chat id carrying a device suffix, as it arrives in a raw
`messages.upsert` event. -/
def c4Raw : Str := "123:4@s.whatsapp.net".toList

/-- The normalized (`decodeJid`) form of `c4Raw`. -/
def c4Norm : Str := "123@s.whatsapp.net".toList

/-- A message event whose chat id is the unnormalized `c4Raw`. -/
def c4Msg : MsgEnt :=
  { remoteJid := some c4Raw, msgId := some "M1".toList,
    fromMe := false, messageTimestamp := some 7 }

/-- A concrete non-self message event used as witness input. -/
def c5Msg : MsgEnt :=
  { remoteJid := some "77@s.whatsapp.net".toList, msgId := some "A1".toList,
    fromMe := false, messageTimestamp := some 5 }

/-! ## Durable config layer (configuration module)

The configuration module persists data in three SQLite tables (`chats`,
`settings`, `meta`).  SQLite itself is an external collaborator; its
behavior at the interface the module uses (`SELECT`/`INSERT OR REPLACE` /
`UPDATE col WHERE jid = ?`) is modelled with association lists. -/

/-- The `TextEncoder` UTF-8 encoding of one character (a platform API used
by `encodeMeta`): standard 1-4 byte UTF-8. -/
def utf8EncodeChar (c : Char) : List Nat :=
  let n := c.toNat
  if n < 128 then [n]
  else if n < 2048 then [192 + n / 64, 128 + n % 64]
  else if n < 65536 then [224 + n / 4096, 128 + n / 64 % 64, 128 + n % 64]
  else [240 + n / 262144, 128 + n / 4096 % 64, 128 + n / 64 % 64, 128 + n % 64]

/-- `new TextEncoder().encode(s)`: UTF-8 bytes of the string. -/
def utf8Encode (s : Str) : List Nat :=
  s.foldr (fun c acc => utf8EncodeChar c ++ acc) []

/-- Fuel-driven body of `utf8Decode`; the recursion is structural in the
fuel so that proofs can evaluate the function.  Every step consumes at least
one byte, so fuel equal to the byte count never runs out. -/
def utf8DecodeAux : Nat → List Nat → Str
  | 0, _ => []
  | _ + 1, [] => []
  | fuel + 1, b :: rest =>
    if b < 128 then Char.ofNat b :: utf8DecodeAux fuel rest
    else if 194 ≤ b ∧ b ≤ 223 then
      match rest with
      | b2 :: r2 =>
        if 128 ≤ b2 ∧ b2 ≤ 191 then
          Char.ofNat ((b - 192) * 64 + (b2 - 128)) :: utf8DecodeAux fuel r2
        else Char.ofNat 0xFFFD :: utf8DecodeAux fuel (b2 :: r2)
      | [] => [Char.ofNat 0xFFFD]
    else if 224 ≤ b ∧ b ≤ 239 then
      match rest with
      | b2 :: b3 :: r3 =>
        if (128 ≤ b2 ∧ b2 ≤ 191) ∧ (128 ≤ b3 ∧ b3 ≤ 191) ∧
            (b ≠ 224 ∨ 160 ≤ b2) ∧ (b ≠ 237 ∨ b2 ≤ 159) then
          Char.ofNat ((b - 224) * 4096 + (b2 - 128) * 64 + (b3 - 128))
            :: utf8DecodeAux fuel r3
        else Char.ofNat 0xFFFD :: utf8DecodeAux fuel (b2 :: b3 :: r3)
      | _ => [Char.ofNat 0xFFFD]
    else if 240 ≤ b ∧ b ≤ 244 then
      match rest with
      | b2 :: b3 :: b4 :: r4 =>
        if (128 ≤ b2 ∧ b2 ≤ 191) ∧ (128 ≤ b3 ∧ b3 ≤ 191) ∧
            (128 ≤ b4 ∧ b4 ≤ 191) ∧
            (b ≠ 240 ∨ 144 ≤ b2) ∧ (b ≠ 244 ∨ b2 ≤ 143) then
          Char.ofNat ((b - 240) * 262144 + (b2 - 128) * 4096
              + (b3 - 128) * 64 + (b4 - 128)) :: utf8DecodeAux fuel r4
        else Char.ofNat 0xFFFD :: utf8DecodeAux fuel (b2 :: b3 :: b4 :: r4)
      | _ => [Char.ofNat 0xFFFD]
    else Char.ofNat 0xFFFD :: utf8DecodeAux fuel rest

/-- `new TextDecoder().decode(bytes)` (a platform API used by `decodeMeta`),
in its default non-fatal mode: standard UTF-8 decoding, with U+FFFD emitted
for malformed input.  The model is exact on well-formed UTF-8 (and so on
every byte string this development evaluates); on some malformed sequences
the number of replacement characters emitted may differ from the WHATWG
decoder, which no definition here depends on. -/
def utf8Decode (bytes : List Nat) : Str := utf8DecodeAux bytes.length bytes

/-- Fuel-driven floor base-2 logarithm (the semantics of `Nat.log2`, written
structurally so that proofs can evaluate it). -/
def natLog2Aux : Nat → Nat → Nat
  | 0, _ => 0
  | fuel + 1, n => if n ≤ 1 then 0 else natLog2Aux fuel (n / 2) + 1

/-- Floor base-2 logarithm of a positive integer. -/
def natLog2 (n : Nat) : Nat := natLog2Aux n n

/-- The regex `/^-?\d+\.?\d*$/` of `decodeMeta`: an optional minus sign, one
or more digits, an optional dot, then zero or more digits. -/
def numPatMatch (s : Str) : Bool :=
  let s1 := match s with
    | '-' :: t => t
    | _ => s
  let ds := s1.takeWhile Char.isDigit
  !ds.isEmpty &&
    (match s1.drop ds.length with
     | [] => true
     | '.' :: r2 => r2.all Char.isDigit
     | _ => false)

/-- Numeric value of a digit string. -/
def digitsVal (ds : Str) : Nat :=
  ds.foldl (fun a c => a * 10 + (c.toNat - 48)) 0

/-- `parseFloat` on a string matching the pattern of `numPatMatch` (the only
strings `decodeMeta` parses): the exact decimal value as a rational.  JS
`parseFloat` rounds this value to the nearest float64; every value this
development evaluates is exactly representable, so the rational
idealization agrees with it there. -/
def parseDecRat (s : Str) : Rat :=
  let s1 := match s with
    | '-' :: t => t
    | _ => s
  let ds := s1.takeWhile Char.isDigit
  let frac : Rat := match s1.drop ds.length with
    | '.' :: r2 => (digitsVal r2 : Rat) / ((10 : Rat) ^ r2.length)
    | _ => 0
  match s with
  | '-' :: _ => -((digitsVal ds : Rat) + frac)
  | _ => (digitsVal ds : Rat) + frac

/-- A JavaScript value as classified by `typeof` in `encodeMeta`.  Numbers
are idealized as rationals (JS numbers are float64; every number this
development evaluates is exactly representable).  A composite value is
carried as its `Bun.inspect` debug string. -/
inductive JSVal where
  | vNull
  | vUndef
  | vStr (s : Str)
  | vNum (q : Rat)
  | vBool (b : Bool)
  | vObj (inspect : Str)
deriving DecidableEq

/-- The IEEE-754 float64 bit pattern of a nonnegative integer: exact for
values below 2^53 (every number this development evaluates); larger values
would need round-to-even, which is not modelled (their mantissa is
truncated). -/
def f64bitsOfNat (n : Nat) : Nat :=
  if n = 0 then 0
  else (1023 + natLog2 n) * 2 ^ 52 + n * 2 ^ 52 / 2 ^ natLog2 n % 2 ^ 52

/-- `new DataView(buffer).setFloat64(0, value, true)` on an 8-byte buffer
(the number branch of `encodeMeta`): the little-endian float64 bytes of the
value.  Exact for integers of magnitude below 2^53; a non-integer value is
truncated toward zero first (IEEE rounding is not modelled; no definition in
this development applies it to such a value). -/
def f64leBytes (q : Rat) : List Nat :=
  let bits := (if q < 0 then 2 ^ 63 else 0) + f64bitsOfNat (q.num.natAbs / q.den)
  (List.range 8).map (fun i => bits / 2 ^ (8 * i) % 256)

/-- `encodeMeta` (configuration module, lines 27-50): null/undefined encode
to null (no bytes); strings to their UTF-8 bytes; numbers to 8 little-endian
float64 bytes; booleans to a single 1/0 byte; objects to the UTF-8 bytes of
their `Bun.inspect` string.  (The final `return null` for remaining typeof
classes - functions, symbols - is outside the modelled value space.) -/
def encodeMeta : JSVal → Option (List Nat)
  | .vNull => none
  | .vUndef => none
  | .vStr s => some (utf8Encode s)
  | .vNum q => some (f64leBytes q)
  | .vBool b => some [if b then 1 else 0]
  | .vObj s => some (utf8Encode s)

/-- `decodeMeta` (configuration module, lines 64-88): null/empty bytes give
null; otherwise decode the bytes as UTF-8 text, return it as a number when
it matches the numeric pattern (the `isNaN` guard never fires on a matching
string and is dropped), as a boolean when it is the literal `"true"` or
`"false"`, and as the raw text otherwise.  `TextDecoder` in non-fatal mode
never throws, so the JS `catch` branch is unreachable. -/
def decodeMeta (bytes : List Nat) : JSVal :=
  if bytes.length = 0 then .vNull
  else
    let text := utf8Decode bytes
    if numPatMatch text then .vNum (parseDecRat text)
    else if text = "true".toList then .vBool true
    else if text = "false".toList then .vBool false
    else .vStr text

/-- The SQLite `meta` table: key to blob. -/
def MetaTable := List (Str × List Nat)

/-- `db.meta.get` (configuration module, lines 716-719): look the key up and
decode, null when the row is absent. -/
def metaGet (t : MetaTable) (k : Str) : JSVal :=
  match objGet t k with
  | some bytes => decodeMeta bytes
  | none => .vNull

/-- `db.meta.set` (configuration module, lines 720-725): encode the value;
a null encoding returns false without touching the table, otherwise
`INSERT OR REPLACE` the bytes and return true. -/
def metaSet (t : MetaTable) (k : Str) (v : JSVal) : Bool × MetaTable :=
  match encodeMeta v with
  | none => (false, t)
  | some bytes => (true, objSet t k bytes)

/-- The UTF-8 text that `decodeMeta` recovers from the float64 bytes of 42:
six NUL characters, then `'E'` (0x45) and `'@'` (0x40). -/
def c2NumText : Str := List.replicate 6 (Char.ofNat 0) ++ ['E', '@']

/-- The two fixed-schema, jid-keyed tables of the configuration module. -/
inductive CfgTable where
  | chats
  | settings
deriving DecidableEq

/-- The `SCHEMAS` column lists (configuration module, lines 516-539). -/
def tableColumns : CfgTable → List Str
  | .chats => ["jid".toList, "mute".toList]
  | .settings => ["jid".toList, "self".toList, "gconly".toList]

/-- An in-memory row object: field name to value. -/
def Row := List (Str × JSVal)

/-- A jid-keyed SQLite table of rows. -/
def DbTable := List (Str × Row)

/-- The boolean normalization of the row-proxy `set` trap:
`typeof value === "boolean" ? (value ? 1 : 0) : value`. -/
def normalizeBool : JSVal → JSVal
  | .vBool b => .vNum (if b then 1 else 0)
  | v => v

/-- The prepared statement `UPDATE <table> SET <col> = ? WHERE jid = ?`: set
the column of the row keyed by the jid; no row is touched when none
matches. -/
def dbUpdateCol (t : DbTable) (jid : Str) (prop : Str) (v : JSVal) : DbTable :=
  match objGet t jid with
  | some row => objSet t jid (objSet row prop v)
  | none => t

/-- The `set` trap of `DataWrapper._createRowProxy` (configuration module,
lines 801-831), acting on the proxied row object and the backing table: a
field name outside the table's fixed schema is refused (logged by the
source; the trap returns false and mutates nothing); otherwise the value is
boolean-normalized and, when a prepared update statement exists for the
column (every schema column except the `jid` primary key), the backing
table and the row object are updated and the trap returns true; for `jid`
itself no statement exists and the trap returns false without mutating.
The trap is a total function: it raises no exception to the caller
performing the assignment. -/
def rowProxySet (table : CfgTable) (jid : Str) (row : Row) (dbt : DbTable)
    (prop : Str) (v : JSVal) : Bool × Row × DbTable :=
  if prop ∉ tableColumns table then (false, row, dbt)
  else
    let nv := normalizeBool v
    if prop ≠ "jid".toList then
      (true, objSet row prop nv, dbUpdateCol dbt jid prop nv)
    else (false, row, dbt)

/-- The `RowCache` LRU cache (configuration module, lines 639-693), backed
by a JS `Map`; values (row proxies) are modelled as opaque numbers. -/
structure RowCache where
  maxSize : Nat
  cache : List (Str × Nat)
deriving DecidableEq

/-- `RowCache.get`: a plain `Map.get`; it does not reposition the entry. -/
def cacheGet (c : RowCache) (k : Str) : Option Nat := objGet c.cache k

/-- `RowCache.set`: when the map already holds `maxSize` or more entries,
delete the first key in the map's insertion order (`keys().next().value`;
deleting `undefined` on an empty map is a no-op, modelled by `tail`), then
`Map.set` the new entry (an existing key keeps its position, a new key goes
to the end). -/
def cacheSet (c : RowCache) (k : Str) (v : Nat) : RowCache :=
  { c with cache :=
      objSet (if c.cache.length ≥ c.maxSize then c.cache.tail else c.cache) k v }

/-- `RowCache.delete`. -/
def cacheDelete (c : RowCache) (k : Str) : RowCache :=
  { c with cache := objDel c.cache k }

/-- `RowCache.clear`. -/
def cacheClear (c : RowCache) : RowCache := { c with cache := [] }

/-- One public `RowCache` operation. -/
inductive CacheOp where
  | get (k : Str)
  | set (k : Str) (v : Nat)
  | del (k : Str)
  | clear
deriving DecidableEq

/-- Apply one operation to the cache (a `get` does not change the state). -/
def applyCacheOp (c : RowCache) : CacheOp → RowCache
  | .get _ => c
  | .set k v => cacheSet c k v
  | .del k => cacheDelete c k
  | .clear => cacheClear c

/-- Run a sequence of cache operations. -/
def runCacheOps (c : RowCache) (ops : List CacheOp) : RowCache :=
  ops.foldl applyCacheOp c

end O3din

namespace O3din

/-! ## Theorems -/

theorem devSuffixReplace_of_not_colon (l : Str) (h : ':' ∉ l) :
    devSuffixReplace l = l := by
  induction l with
  | nil => rfl
  | cons c rest ih =>
    have hc : c ≠ ':' := fun hc => h (hc ▸ List.mem_cons_self c rest)
    have hrest : ':' ∉ rest := fun hr => h (List.mem_cons_of_mem _ hr)
    simp only [devSuffixReplace]
    rw [if_neg (by simp [hc])]
    rw [ih hrest]

theorem takeWhile_all_stop (p : Char → Bool) (l₁ : Str) (x : Char) (l₂ : Str)
    (h : ∀ c ∈ l₁, p c) (hx : ¬ p x) :
    (l₁ ++ x :: l₂).takeWhile p = l₁ := by
  induction l₁ with
  | nil =>
    simp only [List.nil_append, List.takeWhile_cons]
    simp [Bool.not_eq_true] at hx
    simp [hx]
  | cons c rest ih =>
    have hc : p c := h c (List.mem_cons_self c rest)
    simp only [List.cons_append, List.takeWhile_cons, hc, if_true]
    exact congrArg (List.cons c) (ih (fun d hd => h d (List.mem_cons_of_mem _ hd)))

theorem devSuffixReplace_match (a d b : Str)
    (ha : ':' ∉ a) (hd : d ≠ []) (hdig : ∀ c ∈ d, c.isDigit) :
    devSuffixReplace (a ++ ':' :: (d ++ '@' :: b)) = a ++ '@' :: b := by
  induction a with
  | nil =>
    simp only [List.nil_append, devSuffixReplace]
    have htw : (d ++ '@' :: b).takeWhile Char.isDigit = d :=
      takeWhile_all_stop _ d '@' b hdig (by decide)
    have hdrop1 : (d ++ '@' :: b).drop d.length = '@' :: b := List.drop_left d _
    have hdrop2 : (d ++ '@' :: b).drop (d.length + 1) = b := by
      have he : d ++ '@' :: b = (d ++ ['@']) ++ b := by simp
      rw [he, show d.length + 1 = (d ++ ['@']).length by simp]
      exact List.drop_left _ _
    rw [if_pos ⟨by simp, by rw [htw]; exact hd, by rw [htw, hdrop1]; rfl⟩]
    rw [htw, hdrop2]
  | cons c rest ih =>
    have hc : c ≠ ':' := fun hcc => ha (hcc ▸ List.mem_cons_self c rest)
    have hrest : ':' ∉ rest := fun hr => ha (List.mem_cons_of_mem _ hr)
    simp only [List.cons_append, devSuffixReplace]
    rw [if_neg (by simp [hc])]
    exact congrArg (List.cons c) (ih hrest)

/-- C3 (counterexample): the claim fails on the raw identifier `"1234:5"`,
which literally ends in a `:`-digits device suffix.  `decodeJid` strips the
suffix only when an `@` follows it, so `decodeJid "1234:5" = "1234:5"` while
`decodeJid "1234" = "1234@s.whatsapp.net"`: the two results differ. -/
theorem decodeJid_trailing_suffix_counterexample :
    decodeJid "1234:5".toList = some "1234:5".toList ∧
    decodeJid "1234".toList = some "1234@s.whatsapp.net".toList ∧
    decodeJid "1234:5".toList ≠ decodeJid "1234".toList := by decide

/-- C3 (amended): `decodeJid` is invariant under removal of a device suffix
`:<digits>` that immediately precedes the `@` of the server part: for
identifiers of the form `a:d@b` with `d` a nonempty digit run and no other
colon in the string, `decodeJid (a:d@b) = decodeJid (a@b)`.  A `:<n>` suffix
at the very end of the string (with no following `@`) is not stripped. -/
theorem decodeJid_device_suffix_invariant (a d b : Str)
    (hd : d ≠ []) (hdig : ∀ c ∈ d, c.isDigit) (ha : ':' ∉ a) (hb : ':' ∉ b) :
    decodeJid (a ++ ':' :: (d ++ '@' :: b)) = decodeJid (a ++ '@' :: b) := by
  have hne1 : a ++ ':' :: (d ++ '@' :: b) ≠ [] := by simp
  have hne2 : a ++ '@' :: b ≠ [] := by simp
  have hr1 : devSuffixReplace (a ++ ':' :: (d ++ '@' :: b)) = a ++ '@' :: b :=
    devSuffixReplace_match a d b ha hd hdig
  have hnc : ':' ∉ a ++ '@' :: b := by
    intro hmem
    rcases List.mem_append.mp hmem with h | h
    · exact ha h
    · rcases List.mem_cons.mp h with h | h
      · exact absurd h.symm (by decide)
      · exact hb h
  have hr2 : devSuffixReplace (a ++ '@' :: b) = a ++ '@' :: b :=
    devSuffixReplace_of_not_colon _ hnc
  have hat : '@' ∈ a ++ '@' :: b := by simp
  have e1 : decodeJid (a ++ ':' :: (d ++ '@' :: b)) = some (a ++ '@' :: b) := by
    simp only [decodeJid, hr1]
    rw [if_neg (by simp), if_pos hat]
  have e2 : decodeJid (a ++ '@' :: b) = some (a ++ '@' :: b) := by
    simp only [decodeJid, hr2]
    rw [if_neg (by simp), if_pos hat]
  rw [e1, e2]

/-- C3 witness: the invariant at the concrete identifier
`"1234:5@s.whatsapp.net"`. -/
theorem decodeJid_device_suffix_invariant_witness :
    decodeJid ("1234".toList ++ ':' :: (['5'] ++ '@' :: "s.whatsapp.net".toList)) =
      decodeJid ("1234".toList ++ '@' :: "s.whatsapp.net".toList) :=
  decodeJid_device_suffix_invariant "1234".toList ['5'] "s.whatsapp.net".toList
    (by decide) (by decide) (by decide) (by decide)

theorem objGet_set_self {α : Type} (w : List (Str × α)) (k : Str) (v : α) :
    objGet (objSet w k v) k = some v := by
  induction w with
  | nil => simp [objSet, objGet]
  | cons e rest ih =>
    obtain ⟨k₀, v₀⟩ := e
    by_cases h : k₀ = k
    · simp [objSet, objGet, h]
    · simp [objSet, objGet, h, ih]

theorem objGet_set_ne {α : Type} (w : List (Str × α)) (k : Str) (v : α)
    (k' : Str) (h : k' ≠ k) : objGet (objSet w k v) k' = objGet w k' := by
  induction w with
  | nil => simp [objSet, objGet, Ne.symm h]
  | cons e rest ih =>
    obtain ⟨k₀, v₀⟩ := e
    by_cases h0 : k₀ = k
    · subst h0
      simp [objSet, objGet, Ne.symm h]
    · simp [objSet, objGet, h0, ih]

theorem objGet_eq_none_of_not_mem {α : Type} (w : List (Str × α)) (k : Str)
    (h : k ∉ w.map Prod.fst) : objGet w k = none := by
  induction w with
  | nil => rfl
  | cons e rest ih =>
    obtain ⟨k₀, v₀⟩ := e
    have h1 : k₀ ≠ k := fun he => h (by simp [he])
    have h2 : k ∉ rest.map Prod.fst := fun hm => h (by simp [hm])
    simp [objGet, h1, ih h2]

theorem objGet_del {α : Type} (w : List (Str × α)) (k k' : Str) :
    objGet (objDel w k) k' = if k' = k then none else objGet w k' := by
  by_cases hk : k' = k
  · subst hk
    rw [if_pos rfl]
    apply objGet_eq_none_of_not_mem
    intro hmem
    obtain ⟨e, he, hfst⟩ := List.mem_map.mp hmem
    have hp := List.of_mem_filter he
    simp only [decide_eq_true_eq] at hp
    exact hp hfst
  · rw [if_neg hk]
    induction w with
    | nil => rfl
    | cons e rest ih =>
      obtain ⟨k₀, v₀⟩ := e
      by_cases h0 : k₀ = k
      · rw [show objDel ((k₀, v₀) :: rest) k = objDel rest k from by
          simp [objDel, List.filter_cons, h0]]
        rw [ih]
        have hne : k₀ ≠ k' := fun he => hk (he.symm.trans h0)
        simp [objGet, hne]
      · rw [show objDel ((k₀, v₀) :: rest) k = (k₀, v₀) :: objDel rest k from by
          simp [objDel, List.filter_cons, h0]]
        by_cases h0' : k₀ = k'
        · simp [objGet, h0']
        · simp [objGet, h0', ih]

theorem objGet_some_mem_keys {α : Type} (w : List (Str × α)) (k : Str) (v : α)
    (h : objGet w k = some v) : k ∈ w.map Prod.fst := by
  induction w with
  | nil => simp [objGet] at h
  | cons e rest ih =>
    obtain ⟨k₀, v₀⟩ := e
    by_cases h0 : k₀ = k
    · simp [h0]
    · simp only [objGet, if_neg h0] at h
      simp [ih h]

theorem objSet_keys {α : Type} (w : List (Str × α)) (k : Str) (v : α) :
    (objSet w k v).map Prod.fst
      = if k ∈ w.map Prod.fst then w.map Prod.fst
        else w.map Prod.fst ++ [k] := by
  induction w with
  | nil => simp [objSet]
  | cons e rest ih =>
    obtain ⟨k₀, v₀⟩ := e
    by_cases h0 : k₀ = k
    · simp [objSet, h0]
    · by_cases hk : k ∈ rest.map Prod.fst
      · simp [objSet, h0, hk, Ne.symm h0, ih]
      · simp [objSet, h0, hk, Ne.symm h0, ih]

theorem objGet_foldl_del {α : Type} (l : List Str) :
    ∀ (s : List (Str × α)) (k : Str),
      objGet (l.foldl objDel s) k = if k ∈ l then none else objGet s k := by
  induction l with
  | nil => intro s k; simp
  | cons a l ih =>
    intro s k
    have ih := ih (objDel s a) k
    by_cases hk : k ∈ l
    · simp [List.foldl_cons, ih, hk]
    · rw [List.foldl_cons, ih, if_neg hk, objGet_del]
      by_cases hka : k = a <;> simp [hka, hk]

theorem chatKey_ne_msgKey (a b i : Str) : chatKey a ≠ msgKey b i := by
  intro h
  have h7 : (chatKey a).take 7 = (msgKey b i).take 7 := by rw [h]
  simp only [chatKey, msgKey, chatKeyPre, msgKeyPre,
    List.take_append_eq_append_take] at h7
  simp at h7

/-- C1 (counterexample): inserting 25 non-self messages into one chat
sequentially does not leave 15 messages in the window; it leaves 19.  The
trim fires once the window exceeds 20 entries (at the 21st insertion,
cutting back to 15) and the remaining 4 insertions grow it again to 19. -/
theorem pushMessage_window_25_not_15 :
    c1Run.length = 19 ∧ c1Run.length ≠ 15 := by decide

/-- C1 (amended): inserting 25 non-self messages into one chat sequentially
leaves exactly 19 messages in the chat's window, and they are the 19 most
recently inserted (the oldest 6 evicted); the window is capped at 20 and
trimmed down to 15 oldest-first once the cap is exceeded. -/
theorem pushMessage_window_25_leaves_19_most_recent :
    c1Run
      = ((List.range 25).drop 6).map
          (fun n => ([Char.ofNat (65 + n)],
            ({ mid := some [Char.ofNat (65 + n)], fromMe := false,
               hasMessage := true, stubCipher := false } : PushMsg))) := by
  decide

theorem messagesUpsertOne_get_msg (s : Store) (m : MsgEnt) (cid mid : Str)
    (hrj : m.remoteJid = some cid) (hmid : m.msgId = some mid)
    (hc0 : cid ≠ []) (hm0 : mid ≠ [])
    (hsb : cid ≠ "status@broadcast".toList) :
    objGet (messagesUpsertOne s m) (msgKey cid mid) = some (Val.msg m) := by
  simp only [messagesUpsertOne, hrj, hmid]
  rw [if_neg (fun hor => hor.elim hc0 (fun h2 => h2.elim hm0 hsb))]
  rw [objGet_set_ne _ _ _ _ (Ne.symm (chatKey_ne_msgKey cid cid mid))]
  exact objGet_set_self _ _ _

theorem messagesUpsertOne_chat_spec (s : Store) (m : MsgEnt) (cid mid : Str)
    (hrj : m.remoteJid = some cid) (hmid : m.msgId = some mid)
    (hc0 : cid ≠ []) (hm0 : mid ≠ [])
    (hsb : cid ≠ "status@broadcast".toList) :
    chatTs (messagesUpsertOne s m) cid = m.messageTimestamp ∧
    chatUnread (messagesUpsertOne s m) cid
      = chatUnread s cid + (if m.fromMe then 0 else 1) := by
  have hgetchat :
      objGet (objSet s (msgKey cid mid) (Val.msg m)) (chatKey cid)
        = objGet s (chatKey cid) :=
    objGet_set_ne _ _ _ _ (chatKey_ne_msgKey cid cid mid)
  simp only [messagesUpsertOne, hrj, hmid]
  rw [if_neg (fun hor => hor.elim hc0 (fun h2 => h2.elim hm0 hsb))]
  simp only [chatTs, chatUnread, objGet_set_self, hgetchat]
  cases hov : objGet s (chatKey cid) with
  | none => cases hfm : m.fromMe <;> simp [hfm]
  | some v =>
    cases v with
    | chat c => cases hfm : m.fromMe <;> simp [hfm]
    | msg m' => cases hfm : m.fromMe <;> simp [hfm]
    | blocklist l => cases hfm : m.fromMe <;> simp [hfm]

/-- C5: for every message event processed by the `messages.upsert` handler
with a chat id and message id (chat not the status broadcast), the handler
stores the message entity under the key built from the chat id and message
id, sets the parent chat's `conversationTimestamp` to the message's
timestamp, and increments the chat's unread counter by exactly one if and
only if the message is not self-sent. -/
theorem messagesUpsert_spec (s : Store) (m : MsgEnt) (cid mid : Str)
    (hrj : m.remoteJid = some cid) (hmid : m.msgId = some mid)
    (hc0 : cid ≠ []) (hm0 : mid ≠ [])
    (hsb : cid ≠ "status@broadcast".toList) :
    objGet (messagesUpsertOne s m) (msgKey cid mid) = some (Val.msg m) ∧
    chatTs (messagesUpsertOne s m) cid = m.messageTimestamp ∧
    chatUnread (messagesUpsertOne s m) cid
      = chatUnread s cid + (if m.fromMe then 0 else 1) :=
  ⟨messagesUpsertOne_get_msg s m cid mid hrj hmid hc0 hm0 hsb,
   (messagesUpsertOne_chat_spec s m cid mid hrj hmid hc0 hm0 hsb).1,
   (messagesUpsertOne_chat_spec s m cid mid hrj hmid hc0 hm0 hsb).2⟩

/-- C5 witness: the handler at a concrete non-self message into an empty
store. -/
theorem messagesUpsert_spec_witness :
    objGet (messagesUpsertOne [] c5Msg)
        (msgKey "77@s.whatsapp.net".toList "A1".toList)
      = some (Val.msg c5Msg) ∧
    chatTs (messagesUpsertOne [] c5Msg) "77@s.whatsapp.net".toList = some 5 ∧
    chatUnread (messagesUpsertOne [] c5Msg) "77@s.whatsapp.net".toList = 1 := by
  have h := messagesUpsert_spec [] c5Msg "77@s.whatsapp.net".toList "A1".toList
    rfl rfl (by decide) (by decide) (by decide)
  refine ⟨h.1, h.2.1, ?_⟩
  have h2 := h.2.2
  simpa [c5Msg, chatUnread, objGet] using h2

theorem chatsDeleteOne_chatKey (s : Store) (id : Str) :
    objGet (chatsDeleteOne s id) (chatKey id) = none := by
  simp only [chatsDeleteOne]
  rw [objGet_foldl_del]
  by_cases h : chatKey id
      ∈ storeKeysWithPre (objDel s (chatKey id)) (msgKeyPre ++ id ++ [':'])
  · rw [if_pos h]
  · rw [if_neg h, objGet_del, if_pos rfl]

theorem chatsDeleteOne_msgKey (s : Store) (id mid : Str) :
    objGet (chatsDeleteOne s id) (msgKey id mid) = none := by
  simp only [chatsDeleteOne]
  rw [objGet_foldl_del]
  by_cases h : msgKey id mid
      ∈ storeKeysWithPre (objDel s (chatKey id)) (msgKeyPre ++ id ++ [':'])
  · rw [if_pos h]
  · rw [if_neg h]
    cases hv : objGet (objDel s (chatKey id)) (msgKey id mid) with
    | none => rfl
    | some v =>
      exfalso
      apply h
      unfold storeKeysWithPre
      apply List.mem_filter.mpr
      refine ⟨objGet_some_mem_keys _ _ _ hv, ?_⟩
      have he : msgKey id mid = (msgKeyPre ++ id ++ [':']) ++ mid := by
        simp [msgKey]
      rw [he, List.isPrefixOf_iff_prefix]
      exact List.prefix_append _ _

/-- C4 (counterexample): the `messages.upsert` handler does not normalize
the chat id.  For a message whose raw chat id carries a device suffix
(`"123:4@s.whatsapp.net"`, whose `decodeJid` form is
`"123@s.whatsapp.net"`), the handler stores the message under the raw id's
key and nothing under the normalized id's key, so the claim that it stores
under the normalized (`decodeJid`) chat id is false. -/
theorem messagesUpsert_normalized_key_counterexample :
    decodeJid c4Raw = some c4Norm ∧ c4Norm ≠ c4Raw ∧
    objGet (messagesUpsertOne [] c4Msg) (msgKey c4Norm "M1".toList) = none ∧
    objGet (messagesUpsertOne [] c4Msg) (msgKey c4Raw "M1".toList)
      = some (Val.msg c4Msg) := by decide

/-- C4 (amended): the `messages.upsert` and `chats.delete` handlers compute
their store keys from the raw event chat id, without applying the
normalizer: `messages.upsert` stores the message entity under the raw chat
id's message key, and `chats.delete` deletes the chat entity and every
dependent message key under the raw chat id.  (Handlers such as
`chats.set/upsert/update` and the contact handlers do call `decodeJid`
before computing keys.) -/
theorem handlers_use_raw_chat_id (s : Store) (m : MsgEnt) (id mid : Str)
    (hrj : m.remoteJid = some id) (hmid : m.msgId = some mid)
    (hc0 : id ≠ []) (hm0 : mid ≠ [])
    (hsb : id ≠ "status@broadcast".toList) :
    objGet (messagesUpsertOne s m) (msgKey id mid) = some (Val.msg m) ∧
    objGet (chatsDeleteOne s id) (chatKey id) = none ∧
    objGet (chatsDeleteOne s id) (msgKey id mid) = none :=
  ⟨messagesUpsertOne_get_msg s m id mid hrj hmid hc0 hm0 hsb,
   chatsDeleteOne_chatKey s id,
   chatsDeleteOne_msgKey s id mid⟩

/-- C4 witness: the amended behavior at the concrete raw id of the
counterexample. -/
theorem handlers_use_raw_chat_id_witness :
    objGet (messagesUpsertOne [] c4Msg) (msgKey c4Raw "M1".toList)
      = some (Val.msg c4Msg) ∧
    objGet (chatsDeleteOne [] c4Raw) (chatKey c4Raw) = none ∧
    objGet (chatsDeleteOne [] c4Raw) (msgKey c4Raw "M1".toList) = none :=
  handlers_use_raw_chat_id [] c4Msg c4Raw "M1".toList rfl rfl
    (by decide) (by decide) (by decide)

theorem blAddAll_cons (acc : List Str) (j : Str) (js : List Str) :
    blAddAll acc (j :: js)
      = blAddAll (if j ∈ acc then acc else acc ++ [j]) js := rfl

theorem blAddAll_mem_init (jids : List Str) :
    ∀ (acc : List Str) (x : Str), x ∈ acc → x ∈ blAddAll acc jids := by
  induction jids with
  | nil => intro acc x h; exact h
  | cons j js ih =>
    intro acc x h
    rw [blAddAll_cons]
    apply ih
    by_cases hj : j ∈ acc <;> simp [hj, h]

theorem blAddAll_mem_arg (jids : List Str) :
    ∀ (acc : List Str) (x : Str), x ∈ jids → x ∈ blAddAll acc jids := by
  induction jids with
  | nil => intro acc x h; cases h
  | cons j js ih =>
    intro acc x h
    rw [blAddAll_cons]
    rcases List.mem_cons.mp h with rfl | hx
    · apply blAddAll_mem_init
      by_cases hj : x ∈ acc <;> simp [hj]
    · exact ih _ x hx

theorem blAddAll_nodup (jids : List Str) :
    ∀ (acc : List Str), acc.Nodup → (blAddAll acc jids).Nodup := by
  induction jids with
  | nil => intro acc h; exact h
  | cons j js ih =>
    intro acc h
    rw [blAddAll_cons]
    apply ih
    by_cases hj : j ∈ acc
    · simpa [hj] using h
    · rw [if_neg hj]
      refine List.Nodup.append h (List.nodup_singleton j) ?_
      intro a ha hb
      rw [List.mem_singleton] at hb
      exact hj (hb ▸ ha)

/-- C6: starting from any prior blocklist state, processing
`blocklist.update` with `add = [A, B]` and then `blocklist.update` with
`remove = [A]` yields a blocklist containing `B` and not `A`; `add` unions
identifiers idempotently (preserving the no-duplicates property) and
`remove` filters them out. -/
theorem blocklist_add_then_remove (s : Store) (A B : Str) (hAB : A ≠ B) :
    B ∈ getBlocklistL (blocklistUpdate (blocklistUpdate s .add [A, B])
        .remove [A]) ∧
    A ∉ getBlocklistL (blocklistUpdate (blocklistUpdate s .add [A, B])
        .remove [A]) ∧
    ((getBlocklistL s).Nodup →
      (getBlocklistL (blocklistUpdate (blocklistUpdate s .add [A, B])
        .remove [A])).Nodup) := by
  have h1 : getBlocklistL (blocklistUpdate s .add [A, B])
      = blAddAll (getBlocklistL s) [A, B] := by
    simp [blocklistUpdate, getBlocklistL, objGet_set_self]
  have h2 : getBlocklistL (blocklistUpdate (blocklistUpdate s .add [A, B])
        .remove [A])
      = (blAddAll (getBlocklistL s) [A, B]).filter (fun j => j ∉ [A]) := by
    simp only [blocklistUpdate]
    rw [← h1]
    simp [getBlocklistL, objGet_set_self]
  refine ⟨?_, ?_, ?_⟩
  · rw [h2]
    refine List.mem_filter.mpr ⟨blAddAll_mem_arg _ _ B (by simp), ?_⟩
    simp [Ne.symm hAB]
  · rw [h2]
    intro hA
    have := (List.mem_filter.mp hA).2
    simp at this
  · intro h0
    rw [h2]
    exact List.Nodup.filter _ (blAddAll_nodup _ _ h0)

/-- C2 (evaluation of the defect): the durable meta store does not
round-trip numbers or booleans.  `set("k", 42)` stores the 8 little-endian
float64 bytes of 42, which `get("k")` decodes as UTF-8 text - six NUL
characters then `"E@"` - and returns as that string, not as the number 42;
`set("k", true)` stores the single byte 1, which decodes to the string
`"\x01"`, not the boolean `true`.  Only the string case round-trips
(`set("k", "hello")` then `get("k")` gives `"hello"`). -/
theorem metaRoundTrip_numbers_booleans_fail :
    metaGet (metaSet [] "k".toList (.vNum 42)).2 "k".toList = .vStr c2NumText ∧
    metaGet (metaSet [] "k".toList (.vNum 42)).2 "k".toList ≠ .vNum 42 ∧
    metaGet (metaSet [] "k".toList (.vBool true)).2 "k".toList
      = .vStr [Char.ofNat 1] ∧
    metaGet (metaSet [] "k".toList (.vBool true)).2 "k".toList ≠ .vBool true ∧
    metaGet (metaSet [] "k".toList (.vStr "hello".toList)).2 "k".toList
      = .vStr "hello".toList := by decide

/-- C10: `meta.set` with a null or undefined value returns false and leaves
the meta table unchanged (no write is performed); for string, number,
boolean and object values it performs the write (the encoded bytes land
under the key) and returns true. -/
theorem metaSet_null_guard (t : MetaTable) (k : Str) (v : JSVal) :
    ((v = .vNull ∨ v = .vUndef) → metaSet t k v = (false, t)) ∧
    (v ≠ .vNull → v ≠ .vUndef →
      (metaSet t k v).1 = true ∧ objGet (metaSet t k v).2 k = encodeMeta v) := by
  cases v with
  | vNull => exact ⟨fun _ => rfl, fun h _ => absurd rfl h⟩
  | vUndef => exact ⟨fun _ => rfl, fun _ h => absurd rfl h⟩
  | vStr s =>
    exact ⟨fun h => by rcases h with h | h <;> simp at h,
      fun _ _ => ⟨rfl, by simp [metaSet, encodeMeta, objGet_set_self]⟩⟩
  | vNum q =>
    exact ⟨fun h => by rcases h with h | h <;> simp at h,
      fun _ _ => ⟨rfl, by simp [metaSet, encodeMeta, objGet_set_self]⟩⟩
  | vBool b =>
    exact ⟨fun h => by rcases h with h | h <;> simp at h,
      fun _ _ => ⟨rfl, by simp [metaSet, encodeMeta, objGet_set_self]⟩⟩
  | vObj s =>
    exact ⟨fun h => by rcases h with h | h <;> simp at h,
      fun _ _ => ⟨rfl, by simp [metaSet, encodeMeta, objGet_set_self]⟩⟩

/-- C10 witness: a concrete number value on the empty table. -/
theorem metaSet_null_guard_witness :
    (metaSet [] "k".toList (.vNum 42)).1 = true ∧
    objGet (metaSet [] "k".toList (.vNum 42)).2 "k".toList
      = encodeMeta (.vNum 42) :=
  (metaSet_null_guard [] "k".toList (.vNum 42)).2 (by decide) (by decide)

/-- C7: writing a field name outside the table's fixed schema through the
row proxy is refused: the trap returns false and both the row object and the
backing table are left unchanged; the trap is a total function, raising no
exception. -/
theorem rowProxySet_unknown_column (table : CfgTable) (jid : Str) (row : Row)
    (dbt : DbTable) (prop : Str) (v : JSVal)
    (h : prop ∉ tableColumns table) :
    rowProxySet table jid row dbt prop v = (false, row, dbt) := by
  simp [rowProxySet, h]

/-- C7 witness: the unknown column `"bogus"` on the `chats` table. -/
theorem rowProxySet_unknown_column_witness :
    rowProxySet .chats "j".toList [] [] "bogus".toList (.vNum 1)
      = (false, [], []) :=
  rowProxySet_unknown_column .chats "j".toList [] [] "bogus".toList (.vNum 1)
    (by decide)

/-- C8 (counterexample): `RowCache` eviction is not access order.  In a
capacity-2 cache holding `a` (inserted first) then `b`, reading `a` (so `a`
is the most recently touched entry and `b` the least recently touched one)
and then inserting `c` evicts `a`, not `b`: `get` does not reposition an
entry, so the entry evicted is the first-inserted one regardless of
reads. -/
theorem rowCache_eviction_not_access_order :
    cacheGet ⟨2, [("a".toList, 0), ("b".toList, 1)]⟩ "a".toList = some 0 ∧
    (cacheSet ⟨2, [("a".toList, 0), ("b".toList, 1)]⟩ "c".toList 2).cache.map
        Prod.fst = ["b".toList, "c".toList] ∧
    "a".toList ∉ (cacheSet ⟨2, [("a".toList, 0), ("b".toList, 1)]⟩
        "c".toList 2).cache.map Prod.fst := by decide

/-- C8 (amended): the row caches evict in insertion order (FIFO): when a
cache at capacity receives a key, the entry evicted is the first-inserted
one (the head of the map's insertion order) while all later-inserted entries
survive; reads do not refresh an entry's position (`cacheGet` does not
change the cache state at all). -/
theorem cacheSet_evicts_first_inserted (n : Nat) (hd : Str × Nat)
    (rest : List (Str × Nat)) (k : Str) (v : Nat)
    (hcap : (hd :: rest).length ≥ n)
    (hk : hd.1 ≠ k) (hnd : hd.1 ∉ rest.map Prod.fst) :
    hd.1 ∉ (cacheSet ⟨n, hd :: rest⟩ k v).cache.map Prod.fst ∧
    ∀ k', k' ∈ rest.map Prod.fst →
      k' ∈ (cacheSet ⟨n, hd :: rest⟩ k v).cache.map Prod.fst := by
  have hcap2 : n ≤ rest.length + 1 := by simpa using hcap
  have hc : (cacheSet ⟨n, hd :: rest⟩ k v).cache = objSet rest k v := by
    simp [cacheSet, hcap2]
  rw [hc, objSet_keys]
  by_cases hkm : k ∈ rest.map Prod.fst
  · rw [if_pos hkm]
    exact ⟨hnd, fun k' h => h⟩
  · rw [if_neg hkm]
    constructor
    · intro hmem
      rcases List.mem_append.mp hmem with h | h
      · exact hnd h
      · rw [List.mem_singleton] at h
        exact hk h
    · intro k' h
      exact List.mem_append.mpr (Or.inl h)

/-- C8 witness: the concrete capacity-2 eviction of the counterexample
scenario: `a` (first inserted) is evicted and `b` survives. -/
theorem cacheSet_evicts_first_inserted_witness :
    ("a".toList : Str)
      ∉ (cacheSet ⟨2, ("a".toList, 0) :: [("b".toList, 1)]⟩
          "c".toList 2).cache.map Prod.fst ∧
    "b".toList
      ∈ (cacheSet ⟨2, ("a".toList, 0) :: [("b".toList, 1)]⟩
          "c".toList 2).cache.map Prod.fst :=
  ⟨(cacheSet_evicts_first_inserted 2 ("a".toList, 0) [("b".toList, 1)]
      "c".toList 2 (by decide) (by decide) (by decide)).1,
   (cacheSet_evicts_first_inserted 2 ("a".toList, 0) [("b".toList, 1)]
      "c".toList 2 (by decide) (by decide) (by decide)).2 "b".toList
      (by decide)⟩

theorem objSet_length_le {α : Type} (l : List (Str × α)) (k : Str) (v : α) :
    (objSet l k v).length ≤ l.length + 1 := by
  induction l with
  | nil => simp [objSet]
  | cons e rest ih =>
    obtain ⟨k₀, v₀⟩ := e
    by_cases h : k₀ = k
    · simp [objSet, h]
    · simp only [objSet, if_neg h, List.length_cons]
      omega

theorem applyCacheOp_maxSize (c : RowCache) (op : CacheOp) :
    (applyCacheOp c op).maxSize = c.maxSize := by
  cases op <;> rfl

theorem applyCacheOp_length (c : RowCache) (op : CacheOp)
    (hn : 1 ≤ c.maxSize) (h : c.cache.length ≤ c.maxSize) :
    (applyCacheOp c op).cache.length ≤ c.maxSize := by
  cases op with
  | get k => exact h
  | clear => simp [applyCacheOp, cacheClear]
  | del k =>
    exact le_trans (List.length_filter_le _ _) h
  | set k v =>
    simp only [applyCacheOp, cacheSet]
    by_cases hc : c.cache.length ≥ c.maxSize
    · rw [if_pos hc]
      have h1 := objSet_length_le c.cache.tail k v
      have h2 : c.cache.tail.length = c.cache.length - 1 := by
        simp [List.length_tail]
      omega
    · rw [if_neg hc]
      have h1 := objSet_length_le c.cache k v
      omega

theorem runCacheOps_cons (c : RowCache) (op : CacheOp) (ops : List CacheOp) :
    runCacheOps c (op :: ops) = runCacheOps (applyCacheOp c op) ops := rfl

/-- C9 (counterexample): a `RowCache` constructed with `maxSize 0` exceeds
its capacity: a single `set` leaves one entry (on an empty map the eviction
step deletes the `undefined` first key, a no-op, and the insertion then goes
through), so the bound "at most `n` entries" fails at `n = 0`. -/
theorem rowCache_maxSize_zero_counterexample :
    (runCacheOps ⟨0, []⟩ [CacheOp.set "a".toList 0]).cache.length = 1 ∧
    0 < (runCacheOps ⟨0, []⟩ [CacheOp.set "a".toList 0]).cache.length := by
  decide

/-- C9 (amended): for every capacity `n ≥ 1` and every sequence of `get`,
`set`, `delete` and `clear` operations applied to a `RowCache` constructed
with `maxSize n`, the number of cached entries after each operation is at
most `n` (a cache constructed with `maxSize 0` can instead reach one
entry). -/
theorem rowCache_bounded (n : Nat) (hn : 1 ≤ n) (ops : List CacheOp) :
    (runCacheOps ⟨n, []⟩ ops).cache.length ≤ n := by
  suffices h : ∀ (c : RowCache), c.maxSize = n → c.cache.length ≤ n →
      (runCacheOps c ops).cache.length ≤ n by
    exact h ⟨n, []⟩ rfl (by simp)
  induction ops with
  | nil => intro c _ hl; exact hl
  | cons op ops ih =>
    intro c hm hl
    rw [runCacheOps_cons]
    have h1 := applyCacheOp_length c op (hm ▸ hn) (hm ▸ hl)
    have h2 := applyCacheOp_maxSize c op
    exact ih _ (h2.trans hm) (by rw [← hm]; exact h1)

/-- C9 witness: capacity 1 with a single insertion. -/
theorem rowCache_bounded_witness :
    (runCacheOps ⟨1, []⟩ [CacheOp.set "a".toList 0]).cache.length ≤ 1 :=
  rowCache_bounded 1 (by decide) [CacheOp.set "a".toList 0]

/-- C6 witness: two concrete identifiers on the empty prior state. -/
theorem blocklist_add_then_remove_witness :
    "B".toList ∈ getBlocklistL (blocklistUpdate
        (blocklistUpdate [] .add ["A".toList, "B".toList])
        .remove ["A".toList]) ∧
    "A".toList ∉ getBlocklistL (blocklistUpdate
        (blocklistUpdate [] .add ["A".toList, "B".toList])
        .remove ["A".toList]) ∧
    (getBlocklistL (blocklistUpdate
        (blocklistUpdate [] .add ["A".toList, "B".toList])
        .remove ["A".toList])).Nodup :=
  ⟨(blocklist_add_then_remove [] "A".toList "B".toList (by decide)).1,
   (blocklist_add_then_remove [] "A".toList "B".toList (by decide)).2.1,
   (blocklist_add_then_remove [] "A".toList "B".toList (by decide)).2.2
     (by decide)⟩

end O3din
